import Mathlib

/-!
# Verification of `sf_tools.base.np_adjust`

A shallow embedding of the seven functions of `sf_tools/base/np_adjust.py`
(`rotate`, `rotate_stack`, `pad2d`, `x_bins`, `x_bins_step`, `ftr`, `ftl`,
`fancy_transpose`) over a model of numpy `ndarray`s: a shape vector together
with the flat row-major (C-order) element buffer, exactly as numpy lays out a
C-contiguous array.  Fallible calls (numpy raising `ValueError`/`IndexError`)
are modelled with `Option`.  Rational numbers model the exact elementwise
arithmetic of the histogram-bin helpers.
-/

namespace SfTools

/-- A numpy `ndarray`: its shape and its flat element buffer in row-major
(C) order.  A real `ndarray` additionally satisfies
`data.length = shape.prod`; theorems take that as a hypothesis (`Wf`). -/
structure NdArray (α : Type) where
  shape : List Nat
  data : List α
deriving DecidableEq

/-- The buffer of a real `ndarray` holds exactly `shape.prod` elements. -/
def NdArray.Wf {α : Type} (a : NdArray α) : Prop := a.data.length = a.shape.prod

/-- Row-major strides, in elements, of a C-contiguous array of the given
shape: the stride of axis `k` is the product of the dimensions after `k`. -/
def strides : List Nat → List Nat
  | [] => []
  | _ :: ds => ds.prod :: strides ds

/-- Dot product of two lists of naturals (truncating at the shorter one). -/
def dot (xs ys : List Nat) : Nat := (List.zipWith (· * ·) xs ys).sum

/-- Row-major flat offset of a multi-index into an array of shape `s`. -/
def flatIndex (s idx : List Nat) : Nat := dot idx (strides s)

/-- All multi-indices of a shape, enumerated in row-major (C) order. -/
def allIndices : List Nat → List (List Nat)
  | [] => [[]]
  | d :: ds => (List.range d).flatMap fun i => (allIndices ds).map (i :: ·)

/-- `idx` is a valid multi-index for shape `s`: componentwise `idx < s`
(hence also of the same length as `s`). -/
def ValidIdx (s idx : List Nat) : Prop := List.Forall₂ (· < ·) idx s

/-- Element of an array at a multi-index (row-major lookup). -/
def NdArray.get {α : Type} [Inhabited α] (a : NdArray α) (idx : List Nat) : α :=
  a.data.getD (flatIndex a.shape idx) default

/-- `np.flip(m, axis)`: reverse the order of elements along one axis.  The
element at `idx` is the input element at `idx` with component `axis`
replaced by `shape[axis] - 1 - idx[axis]`. -/
def npFlip {α : Type} [Inhabited α] (a : NdArray α) (axis : Nat) : NdArray α :=
  { shape := a.shape
    data := (allIndices a.shape).map fun idx =>
      a.get (idx.set axis (a.shape.getD axis 0 - 1 - idx.getD axis 0)) }

/-- `np.rot90(m, 2)` with the default plane `axes=(0, 1)`: for `k = 2` numpy
returns `flip(flip(m, axes[0]), axes[1])`. -/
def rot180 {α : Type} [Inhabited α] (a : NdArray α) : NdArray α := npFlip (npFlip a 0) 1

/-- `rotate(data) = np.rot90(data, 2)`.  `np.rot90` raises `ValueError` when
the input has fewer than two dimensions. -/
def rotate {α : Type} [Inhabited α] (a : NdArray α) : Option (NdArray α) :=
  if 2 ≤ a.shape.length then some (rot180 a) else none

/-- The slice `a[k]` along the leading axis: shape drops the first dimension
and the buffer is the `k`-th contiguous block of `shape.tail.prod` elements. -/
def NdArray.frame {α : Type} (a : NdArray α) (k : Nat) : NdArray α :=
  { shape := a.shape.tail
    data := (a.data.drop (k * a.shape.tail.prod)).take a.shape.tail.prod }

/-- `rotate_stack(data) = np.array([rotate(x) for x in data])`.  Iterating a
0-d array raises, so rank 0 fails.  An empty leading axis yields the empty
list, and `np.array([])` has shape `(0,)`.  Otherwise every frame (shape
`shape.tail`) must have rank at least 2 for `np.rot90` to succeed, and
`np.array` re-stacks the rotated frames, concatenating their buffers. -/
def rotate_stack {α : Type} [Inhabited α] (a : NdArray α) : Option (NdArray α) :=
  match a.shape with
  | [] => none
  | n :: rest =>
    if n = 0 then some { shape := [0], data := [] }
    else if 2 ≤ rest.length then
      some { shape := n :: rest
             data := (List.range n).flatMap fun k => (rot180 (a.frame k)).data }
    else none

/-- The `padding` argument of `pad2d`: a Python `int` or a pair. -/
inductive Padding where
  | scalar (p : Nat)
  | pair (px py : Nat)
deriving DecidableEq

/-- `np.repeat(l, k)` for a 1-D array: each entry repeated `k` times in place. -/
def npRepeat (l : List Nat) (k : Nat) : List Nat := l.flatMap (List.replicate k)

/-- `pad2d(data, padding)`.  The source computes `shape = np.array(data.shape)`
(never reading `padding`); `shape.ndim == 1` always holds for a shape vector,
so `shape = np.repeat(shape, 2)` is always applied, after which both
`shape[0]` and `shape[1]` equal the first dimension of `data`.  Then
`np.pad(data, ((shape[0], shape[0]), (shape[1], shape[1])), 'constant')`
zero-pads; a 2-pair pad width raises `ValueError` unless the array has rank
exactly 2 (for rank 0 the earlier `shape[0]` lookup raises `IndexError`). -/
def pad2d (a : NdArray Int) (padding : Padding) : Option (NdArray Int) :=
  let rep := npRepeat a.shape 2
  let w0 := rep.getD 0 0
  let w1 := rep.getD 1 0
  if a.shape.length = 2 then
    let r := a.shape.getD 0 0
    let c := a.shape.getD 1 0
    some { shape := [r + 2 * w0, c + 2 * w1]
           data := (allIndices [r + 2 * w0, c + 2 * w1]).map fun idx =>
             let i := idx.getD 0 0
             let j := idx.getD 1 0
             if w0 ≤ i ∧ i < w0 + r ∧ w1 ≤ j ∧ j < w1 + c then a.get [i - w0, j - w1]
             else 0 }
  else none

/-- `x_bins(vals) = (vals[:-1] + vals[1:]) / 2.0`: elementwise average of
consecutive entries of a 1-D sequence. -/
def x_bins (vals : List ℚ) : List ℚ :=
  (List.zipWith (· + ·) vals.dropLast vals.tail).map (· / 2)

/-- `x_bins_step(vals) = x_bins(vals) + (vals[1] - vals[0]) / 2.0`; the
indexing `vals[1]` raises `IndexError` when the sequence has fewer than two
entries. -/
def x_bins_step (vals : List ℚ) : Option (List ℚ) :=
  if 2 ≤ vals.length then
    some ((x_bins vals).map fun x => x + (vals.getD 1 0 - vals.getD 0 0) / 2)
  else none

/-- `np.roll(x, r)` for a 1-D integer array: `result[i] = x[(i - r) mod n]`. -/
def npRoll (l : List Nat) (r : Int) : List Nat :=
  (List.range l.length).map fun i : Nat =>
    l.getD (((i : Int) - r) % (l.length : Int)).toNat 0

/-- `np.transpose(a, axes)`: the view with shape and strides permuted by
`axes`, here materialized in C order (the element at multi-index `idx` sits
at flat offset `dot idx (permuted strides)` of the original buffer). -/
def npTranspose {α : Type} [Inhabited α] (a : NdArray α) (axes : List Nat) : NdArray α :=
  let s' := axes.map fun k => a.shape.getD k 0
  let st' := axes.map fun k => (strides a.shape).getD k 0
  { shape := s'
    data := (allIndices s').map fun idx => a.data.getD (dot idx st') default }

/-- `fancy_transpose(data, roll) = np.transpose(data, np.roll(np.arange(data.ndim), roll))`.
In the source `roll` defaults to `1`. -/
def fancy_transpose {α : Type} [Inhabited α] (a : NdArray α) (roll : Int) : NdArray α :=
  npTranspose a (npRoll (List.range a.shape.length) roll)

/-- `ftr(data) = fancy_transpose(data)`, i.e. with the default `roll=1`. -/
def ftr {α : Type} [Inhabited α] (a : NdArray α) : NdArray α := fancy_transpose a 1

/-- `ftl(data) = fancy_transpose(data, -1)`. -/
def ftl {α : Type} [Inhabited α] (a : NdArray α) : NdArray α := fancy_transpose a (-1)

/-! ## Groundwork: strides, flat offsets and row-major enumeration -/

theorem strides_length (s : List Nat) : (strides s).length = s.length := by
  induction s with
  | nil => rfl
  | cons d ds ih => simp [strides, ih]

theorem flatIndex_nil : flatIndex [] [] = 0 := rfl

theorem flatIndex_cons (d : Nat) (ds : List Nat) (i : Nat) (t : List Nat) :
    flatIndex (d :: ds) (i :: t) = i * ds.prod + flatIndex ds t := by
  simp [flatIndex, dot, strides]

theorem allIndices_length (s : List Nat) : (allIndices s).length = s.prod := by
  induction s with
  | nil => rfl
  | cons d ds ih =>
    simp only [allIndices, List.length_flatMap, List.prod_cons]
    have hfun : (List.length ∘ fun i => List.map (fun x => i :: x) (allIndices ds)) =
        fun _ : Nat => ds.prod := by
      funext i
      simp [ih]
    rw [hfun, List.map_const', List.sum_replicate, smul_eq_mul, List.length_range]

theorem mem_allIndices {s idx : List Nat} : idx ∈ allIndices s ↔ ValidIdx s idx := by
  induction s generalizing idx with
  | nil =>
    simp only [allIndices, List.mem_singleton, ValidIdx, List.forall₂_nil_right_iff]
  | cons d ds ih =>
    simp only [allIndices, List.mem_flatMap, List.mem_map, List.mem_range, ValidIdx,
      List.forall₂_cons_right_iff]
    constructor
    · rintro ⟨i, hi, t, ht, rfl⟩
      exact ⟨i, t, hi, ih.mp ht, rfl⟩
    · rintro ⟨i, t, hi, ht, rfl⟩
      exact ⟨i, hi, t, ih.mpr ht, rfl⟩

theorem validIdx_length {s idx : List Nat} (h : ValidIdx s idx) : idx.length = s.length :=
  List.Forall₂.length_eq h

theorem flatIndex_lt {s idx : List Nat} (h : ValidIdx s idx) : flatIndex s idx < s.prod := by
  induction h with
  | nil => simp [flatIndex, dot, strides]
  | @cons i d t ds hid _ ih =>
    rw [flatIndex_cons, List.prod_cons]
    calc i * ds.prod + flatIndex ds t < i * ds.prod + ds.prod := by omega
      _ = (i + 1) * ds.prod := by ring
      _ ≤ d * ds.prod := Nat.mul_le_mul_right _ (by omega)

theorem flatMap_getD_block {α β : Type} {g : β → List α} {P : Nat} (L : List β)
    (hg : ∀ b ∈ L, (g b).length = P) (k : Nat) (hk : k < L.length)
    (q : Nat) (hq : q < P) (d : α) :
    (L.flatMap g).getD (k * P + q) d = (g (L.get ⟨k, hk⟩)).getD q d := by
  induction L generalizing k with
  | nil => simp at hk
  | cons b L ih =>
    rw [List.flatMap_cons]
    cases k with
    | zero =>
      have hb : (g b).length = P := hg b (by simp)
      simp only [Nat.zero_mul, Nat.zero_add]
      rw [List.getD_eq_getElem?_getD, List.getElem?_append_left (by omega)]
      simp [List.getD_eq_getElem?_getD]
    | succ k =>
      have hb : (g b).length = P := hg b (by simp)
      have hk' : k < L.length := by simpa using hk
      have : (k + 1) * P + q = (g b).length + (k * P + q) := by rw [hb]; ring
      rw [this, List.getD_eq_getElem?_getD, List.getElem?_append_right (by omega)]
      rw [Nat.add_sub_cancel_left, ← List.getD_eq_getElem?_getD]
      rw [ih (fun x hx => hg x (by simp [hx])) k hk']
      rfl

theorem flatMap_slice {α β : Type} {g : β → List α} {P : Nat} (L : List β)
    (hg : ∀ b ∈ L, (g b).length = P) (k : Nat) (hk : k < L.length) :
    ((L.flatMap g).drop (k * P)).take P = g (L.get ⟨k, hk⟩) := by
  induction L generalizing k with
  | nil => simp at hk
  | cons b L ih =>
    rw [List.flatMap_cons]
    have hb : (g b).length = P := hg b (by simp)
    cases k with
    | zero =>
      simp only [Nat.zero_mul, List.drop_zero]
      rw [List.take_append_of_le_length (by omega), ← hb, List.take_length]
      rfl
    | succ k =>
      have hk' : k < L.length := by simpa using hk
      have : (k + 1) * P = (g b).length + k * P := by rw [hb]; ring
      rw [this, List.drop_append, ih (fun x hx => hg x (by simp [hx])) k hk']
      rfl

theorem allIndices_map_getD {α : Type} {s idx : List Nat} (h : ValidIdx s idx)
    (f : List Nat → α) (d : α) :
    ((allIndices s).map f).getD (flatIndex s idx) d = f idx := by
  induction h generalizing f with
  | nil => simp [allIndices, flatIndex, dot, strides]
  | @cons i d' t ds hid ht ih =>
    rw [flatIndex_cons]
    have hmap : (allIndices (d' :: ds)).map f =
        (List.range d').flatMap fun i => (allIndices ds).map fun x => f (i :: x) := by
      simp only [allIndices, List.map_flatMap, List.map_map, Function.comp_def]
    rw [hmap]
    have hblocks : ∀ b ∈ List.range d',
        ((allIndices ds).map fun x => f (b :: x)).length = ds.prod := by
      intro b _; simp [allIndices_length]
    rw [flatMap_getD_block (List.range d') hblocks i (by simpa using hid)
      (flatIndex ds t) (flatIndex_lt ht) d]
    simp only [List.get_eq_getElem, List.getElem_range]
    exact ih fun x => f (i :: x)

theorem flatMap_slices {α : Type} (d P : Nat) (l : List α) (hl : l.length = d * P) :
    (List.range d).flatMap (fun i => (l.drop (i * P)).take P) = l := by
  induction d generalizing l with
  | zero =>
    have : l = [] := List.eq_nil_of_length_eq_zero (by omega)
    simp [this]
  | succ d ih =>
    rw [List.range_succ_eq_map, List.flatMap_cons, List.flatMap_map]
    simp only [Nat.zero_mul, List.drop_zero]
    have hfun : ((List.range d).flatMap fun a =>
          (l.drop ((a + 1) * P)).take P)
        = (List.range d).flatMap fun i => ((l.drop P).drop (i * P)).take P := by
      apply List.flatMap_congr
      intro i _
      rw [List.drop_drop]
      congr 2
      ring
    show (List.take P l ++ (List.range d).flatMap fun a => (l.drop ((a + 1) * P)).take P) = l
    rw [hfun, ih (l.drop P) (by rw [List.length_drop, hl]; ring_nf; omega),
      List.take_append_drop]

theorem allIndices_map_read {α : Type} (s : List Nat) (l : List α) (d : α)
    (hl : l.length = s.prod) :
    (allIndices s).map (fun idx => l.getD (flatIndex s idx) d) = l := by
  induction s generalizing l with
  | nil =>
    obtain ⟨x, rfl⟩ := List.length_eq_one.mp (by simpa using hl)
    simp [allIndices, flatIndex, dot, strides]
  | cons d' ds ih =>
    have hmap : (allIndices (d' :: ds)).map (fun idx => l.getD (flatIndex (d' :: ds) idx) d) =
        (List.range d').flatMap fun i =>
          (allIndices ds).map fun x => l.getD (flatIndex (d' :: ds) (i :: x)) d := by
      simp only [allIndices, List.map_flatMap, List.map_map, Function.comp_def]
    rw [hmap]
    have hinner : ∀ i ∈ List.range d',
        ((allIndices ds).map fun x => l.getD (flatIndex (d' :: ds) (i :: x)) d) =
          ((l.drop (i * ds.prod)).take ds.prod) := by
      intro i hi
      have hirange : i < d' := by simpa using hi
      have hslice : ((l.drop (i * ds.prod)).take ds.prod).length = ds.prod := by
        rw [List.length_take, List.length_drop, hl, List.prod_cons]
        have : i * ds.prod + ds.prod ≤ d' * ds.prod := by
          calc i * ds.prod + ds.prod = (i + 1) * ds.prod := by ring
            _ ≤ d' * ds.prod := Nat.mul_le_mul_right _ (by omega)
        omega
      have hslice_eq := ih ((l.drop (i * ds.prod)).take ds.prod) hslice
      rw [← hslice_eq]
      apply List.map_congr_left
      intro x hx
      have hvx : ValidIdx ds x := mem_allIndices.mp hx
      have hxlt : flatIndex ds x < ds.prod := flatIndex_lt hvx
      have hidxlt : i * ds.prod + flatIndex ds x < l.length := by
        rw [hl, List.prod_cons]
        calc i * ds.prod + flatIndex ds x < i * ds.prod + ds.prod := by omega
          _ = (i + 1) * ds.prod := by ring
          _ ≤ d' * ds.prod := Nat.mul_le_mul_right _ (by omega)
      rw [flatIndex_cons]
      rw [List.getD_eq_getElem l d hidxlt]
      rw [List.getD_eq_getElem _ d (by rw [hslice]; exact hxlt)]
      rw [List.getElem_take, List.getElem_drop]
    have hcongr : (List.range d').flatMap
          (fun i => (allIndices ds).map fun x => l.getD (flatIndex (d' :: ds) (i :: x)) d)
        = (List.range d').flatMap fun i => (l.drop (i * ds.prod)).take ds.prod :=
      List.flatMap_congr hinner
    rw [hcongr]
    exact flatMap_slices d' ds.prod l (show l.length = d' * ds.prod by rw [hl, List.prod_cons])

theorem allIndices_nodup (s : List Nat) : (allIndices s).Nodup := by
  induction s with
  | nil => simp [allIndices]
  | cons d ds ih =>
    rw [allIndices, List.nodup_flatMap]
    have hinj : ∀ i : Nat, Function.Injective (fun x : List Nat => i :: x) := by
      intro i x y hxy
      simpa using hxy
    refine ⟨fun i _ => ih.map (hinj i), ?_⟩
    refine List.Pairwise.imp ?_ (List.nodup_range d)
    intro i j hij
    intro x hx hy
    simp only [List.mem_map] at hx hy
    obtain ⟨t, _, rfl⟩ := hx
    obtain ⟨t', _, h⟩ := hy
    injection h with h1 h2
    exact hij h1.symm

/-! ## Groundwork: cyclic rolls of index vectors -/

theorem emod_toNat_lt {n : Nat} (hn : 0 < n) (a : Int) : (a % (n : Int)).toNat < n := by
  have hne : (n : Int) ≠ 0 := by exact_mod_cast Nat.pos_iff_ne_zero.mp hn
  have h1 : (0 : Int) ≤ a % (n : Int) := Int.emod_nonneg _ hne
  have h2 : a % (n : Int) < (n : Int) := Int.emod_lt_of_pos _ (by exact_mod_cast hn)
  omega

theorem npRoll_length (l : List Nat) (r : Int) : (npRoll l r).length = l.length := by
  simp [npRoll]

theorem npRoll_getD {l : List Nat} {i : Nat} (h : i < l.length) (r : Int) (d : Nat) :
    (npRoll l r).getD i d = l.getD (((i : Int) - r) % (l.length : Int)).toNat 0 := by
  have hb : i < (npRoll l r).length := by rw [npRoll_length]; exact h
  rw [List.getD_eq_getElem _ d hb]
  simp only [npRoll, List.getElem_map, List.getElem_range]

theorem npRoll_eq_rotate (l : List Nat) (r : Int) :
    npRoll l r = l.rotate ((-r % (l.length : Int)).toNat) := by
  rcases Nat.eq_zero_or_pos l.length with h0 | hpos
  · have hnil : l = [] := List.eq_nil_of_length_eq_zero h0
    subst hnil
    simp [npRoll]
  · have hne : (l.length : Int) ≠ 0 := by exact_mod_cast Nat.pos_iff_ne_zero.mp hpos
    apply List.ext_getElem (by simp [npRoll_length])
    intro i h1 h2
    have hi : i < l.length := by rwa [npRoll_length] at h1
    have hlhs : (npRoll l r)[i] = l.getD (((i : Int) - r) % (l.length : Int)).toNat 0 := by
      rw [← List.getD_eq_getElem _ 0 h1]
      exact npRoll_getD hi r 0
    rw [hlhs, List.getElem_rotate]
    set m : Nat := ((-r) % (l.length : Int)).toNat with hm
    have hmcast : (m : Int) = (-r) % (l.length : Int) :=
      Int.toNat_of_nonneg (Int.emod_nonneg _ hne)
    have hidx : (((i : Int) - r) % (l.length : Int)).toNat = (i + m) % l.length := by
      have hcast : ((((i + m) % l.length : Nat) : Int)) =
          ((i : Int) - r) % (l.length : Int) := by
        push_cast
        rw [hmcast, Int.add_emod, Int.emod_emod_of_dvd _ dvd_rfl, ← Int.add_emod,
          ← Int.sub_eq_add_neg]
      have hnonneg : (0 : Int) ≤ ((i : Int) - r) % (l.length : Int) :=
        Int.emod_nonneg _ hne
      omega
    rw [hidx, List.getD_eq_getElem _ 0 (by exact Nat.mod_lt _ hpos)]

theorem npRoll_perm (l : List Nat) (r : Int) : List.Perm (npRoll l r) l := by
  rw [npRoll_eq_rotate]
  exact List.rotate_perm l _

theorem npRoll_prod (l : List Nat) (r : Int) : (npRoll l r).prod = l.prod :=
  (npRoll_perm l r).prod_eq

theorem npRoll_npRoll (l : List Nat) (r r' : Int) :
    npRoll (npRoll l r) r' = npRoll l (r + r') := by
  rcases Nat.eq_zero_or_pos l.length with h0 | hpos
  · have hnil : l = [] := List.eq_nil_of_length_eq_zero h0
    subst hnil
    simp [npRoll]
  · have hne : (l.length : Int) ≠ 0 := by exact_mod_cast Nat.pos_iff_ne_zero.mp hpos
    apply List.ext_getElem (by simp [npRoll_length])
    intro i h1 h2
    have hi : i < l.length := by rwa [npRoll_length] at h2
    rw [← List.getD_eq_getElem _ 0 h1, ← List.getD_eq_getElem _ 0 h2]
    have houter := npRoll_getD (show i < (npRoll l r).length from by
      rw [npRoll_length]; exact hi) r' 0
    rw [npRoll_length] at houter
    set j : Nat := (((i : Int) - r') % (l.length : Int)).toNat with hjdef
    have hjlt : j < l.length := emod_toNat_lt hpos _
    have hinner := npRoll_getD hjlt r 0
    have hrhs := npRoll_getD hi (r + r') 0
    rw [houter, hinner, hrhs]
    have hjcast : (j : Int) = ((i : Int) - r') % (l.length : Int) :=
      Int.toNat_of_nonneg (Int.emod_nonneg _ hne)
    have hidx : (((j : Int) - r) % (l.length : Int)).toNat =
        (((i : Int) - (r + r')) % (l.length : Int)).toNat := by
      rw [hjcast, Int.sub_emod (((i : Int) - r') % (l.length : Int)) r,
        Int.emod_emod_of_dvd _ dvd_rfl, ← Int.sub_emod]
      congr 2
      ring
    rw [hidx]

theorem npRoll_zero (l : List Nat) : npRoll l 0 = l := by
  rcases Nat.eq_zero_or_pos l.length with h0 | hpos
  · have hnil : l = [] := List.eq_nil_of_length_eq_zero h0
    subst hnil
    simp [npRoll]
  · apply List.ext_getElem (npRoll_length l 0)
    intro i h1 h2
    rw [← List.getD_eq_getElem _ 0 h1, ← List.getD_eq_getElem _ 0 h2]
    rw [npRoll_getD h2 0 0]
    congr 1
    rw [Int.sub_zero, Int.emod_eq_of_lt (by omega) (by exact_mod_cast h2)]
    omega

theorem npRoll_cancel (l : List Nat) (r : Int) : npRoll (npRoll l r) (-r) = l := by
  rw [npRoll_npRoll, add_neg_cancel, npRoll_zero]

theorem npRoll_injective (r : Int) :
    Function.Injective (fun l : List Nat => npRoll l r) := by
  intro x y hxy
  have hc := congrArg (fun l : List Nat => npRoll l (-r)) hxy
  simp only at hc
  rwa [npRoll_cancel, npRoll_cancel] at hc

theorem ext_getD {l1 l2 : List Nat} (hlen : l1.length = l2.length)
    (h : ∀ i, i < l1.length → l1.getD i 0 = l2.getD i 0) : l1 = l2 := by
  apply List.ext_getElem hlen
  intro i h1 h2
  rw [← List.getD_eq_getElem _ 0 h1, ← List.getD_eq_getElem _ 0 h2]
  exact h i h1

theorem getD_map_nat (f : Nat → Nat) (xs : List Nat) (i : Nat) (h : i < xs.length) (d : Nat) :
    (xs.map f).getD i d = f (xs.getD i 0) := by
  rw [List.getD_eq_getElem _ d (by simpa using h), List.getElem_map,
    List.getD_eq_getElem _ 0 h]

theorem map_getD_npRoll_range (n : Nat) (l : List Nat) (hn : l.length = n) (r : Int) :
    (npRoll (List.range n) r).map (fun k => l.getD k 0) = npRoll l r := by
  apply ext_getD (by simp [npRoll_length, hn])
  intro i hilen
  have hi : i < n := by simpa [npRoll_length] using hilen
  have hpos : 0 < n := by omega
  rw [getD_map_nat _ _ _ (by simpa [npRoll_length] using hi) 0]
  rw [npRoll_getD (by simpa using hi) r 0, List.length_range]
  have hb : (((i : Int) - r) % (n : Int)).toNat < n := emod_toNat_lt hpos _
  rw [List.getD_eq_getElem (List.range n) 0 (by simpa using hb), List.getElem_range]
  rw [npRoll_getD (show i < l.length by omega) r 0, hn]

theorem validIdx_npRoll {s idx : List Nat} (h : ValidIdx s idx) (r : Int) :
    ValidIdx (npRoll s r) (npRoll idx r) := by
  have hlen : idx.length = s.length := validIdx_length h
  have hget := (List.forall₂_iff_get.mp h).2
  rw [ValidIdx, List.forall₂_iff_get]
  refine ⟨by simp [npRoll_length, hlen], ?_⟩
  intro k h1 h2
  have hk : k < s.length := by simpa [npRoll_length] using h2
  have hn : 0 < s.length := by omega
  simp only [List.get_eq_getElem]
  rw [← List.getD_eq_getElem _ 0 h1, ← List.getD_eq_getElem _ 0 h2]
  rw [npRoll_getD (by omega) r 0, npRoll_getD hk r 0, hlen]
  set j : Nat := (((k : Int) - r) % (s.length : Int)).toNat with hj
  have hjlt : j < s.length := emod_toNat_lt hn _
  rw [List.getD_eq_getElem _ 0 (by omega), List.getD_eq_getElem _ 0 hjlt]
  exact hget j (by omega) hjlt

theorem roll_roundtrip {n : Nat} (hpos : 0 < n) (r : Int) {k : Nat} (hk : k < n) :
    ((((((k : Int) - r) % (n : Int)).toNat : Int) + r) % (n : Int)).toNat = k := by
  have hne : (n : Int) ≠ 0 := by exact_mod_cast Nat.pos_iff_ne_zero.mp hpos
  have hcast : ((((k : Int) - r) % (n : Int)).toNat : Int) = ((k : Int) - r) % (n : Int) :=
    Int.toNat_of_nonneg (Int.emod_nonneg _ hne)
  rw [hcast, Int.add_emod, Int.emod_emod_of_dvd _ dvd_rfl, ← Int.add_emod]
  rw [show (k : Int) - r + r = (k : Int) by ring]
  rw [Int.emod_eq_of_lt (by omega) (by exact_mod_cast hk)]
  omega

theorem roll_roundtrip_rev {n : Nat} (hpos : 0 < n) (r : Int) {k : Nat} (hk : k < n) :
    ((((((k : Int) + r) % (n : Int)).toNat : Int) - r) % (n : Int)).toNat = k := by
  have h := roll_roundtrip hpos (-r) hk
  rw [Int.sub_neg, ← Int.sub_eq_add_neg] at h
  exact h

theorem dot_eq_sum (xs ys : List Nat) (h : xs.length = ys.length) :
    dot xs ys = ∑ k ∈ Finset.range xs.length, xs.getD k 0 * ys.getD k 0 := by
  induction xs generalizing ys with
  | nil => simp [dot]
  | cons x xs ih =>
    cases ys with
    | nil => simp at h
    | cons y ys =>
      have hlen : xs.length = ys.length := by simpa using h
      simp only [dot, List.zipWith_cons_cons, List.sum_cons, List.length_cons]
      rw [Finset.sum_range_succ']
      simp only [List.getD_cons_succ, List.getD_cons_zero]
      rw [← dot, ih ys hlen]
      ring

theorem dot_npRoll (idx w : List Nat) (r : Int) (h : idx.length = w.length) :
    dot idx (npRoll w r) = dot (npRoll idx (-r)) w := by
  set n := w.length with hn
  have hidx : idx.length = n := h
  have hlhs : dot idx (npRoll w r) =
      ∑ k ∈ Finset.range n, idx.getD k 0 * w.getD (((k : Int) - r) % (n : Int)).toNat 0 := by
    rw [dot_eq_sum idx (npRoll w r) (by rw [npRoll_length]; exact h), hidx]
    refine Finset.sum_congr rfl ?_
    intro k hk
    have hkn : k < n := Finset.mem_range.mp hk
    rw [npRoll_getD (by omega) r 0]
  have hrhs : dot (npRoll idx (-r)) w =
      ∑ k ∈ Finset.range n, idx.getD (((k : Int) + r) % (n : Int)).toNat 0 * w.getD k 0 := by
    rw [dot_eq_sum (npRoll idx (-r)) w (by rw [npRoll_length]; exact h), npRoll_length, hidx]
    refine Finset.sum_congr rfl ?_
    intro k hk
    have hkn : k < n := Finset.mem_range.mp hk
    rw [npRoll_getD (by omega : k < idx.length) (-r) 0, hidx]
    rw [Int.sub_neg]
  rw [hlhs, hrhs]
  rcases Nat.eq_zero_or_pos n with h0 | hpos
  · simp [h0]
  · refine Finset.sum_nbij' (fun k => (((k : Int) - r) % (n : Int)).toNat)
      (fun k => (((k : Int) + r) % (n : Int)).toNat) ?_ ?_ ?_ ?_ ?_
    · intro k _
      exact Finset.mem_range.mpr (emod_toNat_lt hpos _)
    · intro k _
      exact Finset.mem_range.mpr (emod_toNat_lt hpos _)
    · intro k hk
      exact roll_roundtrip hpos r (Finset.mem_range.mp hk)
    · intro k hk
      exact roll_roundtrip_rev hpos r (Finset.mem_range.mp hk)
    · intro k hk
      rw [roll_roundtrip hpos r (Finset.mem_range.mp hk)]

/-! ## Characterization of fancy_transpose -/

theorem NdArray.ext' {α : Type} {a b : NdArray α} (hs : a.shape = b.shape)
    (hd : a.data = b.data) : a = b := by
  cases a
  cases b
  simp_all

theorem fancy_transpose_shape {α : Type} [Inhabited α] (a : NdArray α) (r : Int) :
    (fancy_transpose a r).shape = npRoll a.shape r := by
  simp only [fancy_transpose, npTranspose]
  exact map_getD_npRoll_range a.shape.length a.shape rfl r

theorem fancy_transpose_data {α : Type} [Inhabited α] (a : NdArray α) (r : Int) :
    (fancy_transpose a r).data = (allIndices (npRoll a.shape r)).map
      fun idx => a.data.getD (flatIndex a.shape (npRoll idx (-r))) default := by
  simp only [fancy_transpose, npTranspose]
  rw [map_getD_npRoll_range a.shape.length a.shape rfl r,
    map_getD_npRoll_range a.shape.length (strides a.shape) (strides_length a.shape) r]
  apply List.map_congr_left
  intro idx hidx
  have hv : ValidIdx (npRoll a.shape r) idx := mem_allIndices.mp hidx
  have hlen : idx.length = (strides a.shape).length := by
    rw [strides_length, validIdx_length hv, npRoll_length]
  rw [dot_npRoll idx (strides a.shape) r hlen]
  rfl

theorem npRoll_append_one (s0 : List Nat) (x : Nat) :
    npRoll (s0 ++ [x]) 1 = x :: s0 := by
  rw [npRoll_eq_rotate]
  have hlen : (s0 ++ [x]).length = s0.length + 1 := by simp
  have hmod : ((-1 : Int) % ((s0 ++ [x]).length : Int)).toNat = s0.length := by
    rw [hlen]
    have hk : (((s0.length + 1 : Nat)) : Int) = (s0.length : Int) + 1 := by push_cast; ring
    rw [hk]
    have h1 : ((-1 : Int) + ((s0.length : Int) + 1) * 1) % ((s0.length : Int) + 1) =
        (-1 : Int) % ((s0.length : Int) + 1) :=
      Int.add_mul_emod_self_left (-1) ((s0.length : Int) + 1) 1
    rw [show (-1 : Int) + ((s0.length : Int) + 1) * 1 = (s0.length : Int) by ring] at h1
    rw [← h1, Int.emod_eq_of_lt (by omega) (by omega)]
    omega
  rw [hmod, List.rotate_eq_drop_append_take (by simp), List.drop_left, List.take_left]
  rfl

theorem npRoll_cons_neg_one (x : Nat) (s0 : List Nat) :
    npRoll (x :: s0) (-1) = s0 ++ [x] := by
  rw [npRoll_eq_rotate, Int.neg_neg]
  cases s0 with
  | nil =>
    simp [Int.emod_self]
  | cons y ys =>
    have hmod : ((1 : Int) % ((x :: y :: ys).length : Int)).toNat = 1 := by
      rw [Int.emod_eq_of_lt (by omega) (by simp)]
      rfl
    rw [hmod, List.rotate_eq_drop_append_take (by simp)]
    simp

theorem allIndices_npRoll_perm (s : List Nat) (r : Int) :
    List.Perm ((allIndices (npRoll s r)).map fun idx => npRoll idx (-r)) (allIndices s) := by
  have h1 : ((allIndices (npRoll s r)).map fun idx => npRoll idx (-r)).Nodup :=
    List.Nodup.map (npRoll_injective (-r)) (allIndices_nodup _)
  apply (List.perm_ext_iff_of_nodup h1 (allIndices_nodup s)).mpr
  intro y
  simp only [List.mem_map]
  constructor
  · rintro ⟨x, hx, rfl⟩
    have hv : ValidIdx (npRoll s r) x := mem_allIndices.mp hx
    have hv2 := validIdx_npRoll hv (-r)
    rw [npRoll_cancel] at hv2
    exact mem_allIndices.mpr hv2
  · intro hy
    refine ⟨npRoll y r, ?_, npRoll_cancel y r⟩
    exact mem_allIndices.mpr (validIdx_npRoll (mem_allIndices.mp hy) r)

theorem fancy_transpose_data_perm {α : Type} [Inhabited α] (a : NdArray α) (r : Int)
    (hwf : a.data.length = a.shape.prod) :
    List.Perm (fancy_transpose a r).data a.data := by
  rw [fancy_transpose_data]
  have hperm := (allIndices_npRoll_perm a.shape r).map
    (fun j => a.data.getD (flatIndex a.shape j) default)
  rw [allIndices_map_read a.shape a.data default hwf] at hperm
  rw [List.map_map] at hperm
  exact hperm

theorem ftl_ftr_cancel {α : Type} [Inhabited α] (a : NdArray α)
    (hwf : a.data.length = a.shape.prod) : ftl (ftr a) = a := by
  have hs1 : (ftr a).shape = npRoll a.shape 1 := fancy_transpose_shape a 1
  have hs2 : npRoll (npRoll a.shape 1) (-1) = a.shape := by
    rw [npRoll_npRoll, add_neg_cancel, npRoll_zero]
  apply NdArray.ext'
  · rw [ftl, fancy_transpose_shape, hs1, hs2]
  · rw [ftl, fancy_transpose_data, hs1, hs2, Int.neg_neg]
    have hstep : ∀ idx ∈ allIndices a.shape,
        (ftr a).data.getD (flatIndex (npRoll a.shape 1) (npRoll idx 1)) default =
          a.data.getD (flatIndex a.shape idx) default := by
      intro idx hidx
      have hv : ValidIdx a.shape idx := mem_allIndices.mp hidx
      have hvj : ValidIdx (npRoll a.shape 1) (npRoll idx 1) := validIdx_npRoll hv 1
      rw [ftr, fancy_transpose_data]
      rw [allIndices_map_getD hvj
        (fun idx => a.data.getD (flatIndex a.shape (npRoll idx (-1))) default) default]
      rw [npRoll_cancel]
    rw [List.map_congr_left hstep]
    exact allIndices_map_read a.shape a.data default hwf

/-! ## Characterization of rotate, rotate_stack, pad2d and the bin helpers -/

theorem npFlip_get {α : Type} [Inhabited α] (a : NdArray α) (axis : Nat) {idx : List Nat}
    (hv : ValidIdx a.shape idx) :
    (npFlip a axis).get idx =
      a.get (idx.set axis (a.shape.getD axis 0 - 1 - idx.getD axis 0)) := by
  simp only [NdArray.get, npFlip]
  exact allIndices_map_getD hv _ default

theorem rot180_shape {α : Type} [Inhabited α] (a : NdArray α) :
    (rot180 a).shape = a.shape := rfl

theorem rot180_data_length {α : Type} [Inhabited α] (x : NdArray α) :
    (rot180 x).data.length = x.shape.prod := by
  simp only [rot180, npFlip, List.length_map]
  exact allIndices_length _

theorem rot180_get {α : Type} [Inhabited α] (a : NdArray α) (r c : Nat) (rest : List Nat)
    (hs : a.shape = r :: c :: rest) (i j : Nat) (tail : List Nat)
    (hv : ValidIdx a.shape (i :: j :: tail)) :
    (rot180 a).get (i :: j :: tail) = a.get ((r - 1 - i) :: (c - 1 - j) :: tail) := by
  have hv' : List.Forall₂ (· < ·) (i :: j :: tail) (r :: c :: rest) := by rwa [hs] at hv
  rw [List.forall₂_cons, List.forall₂_cons] at hv'
  obtain ⟨hi, hj, htail⟩ := hv'
  have hv2 : ValidIdx a.shape (i :: (c - 1 - j) :: tail) := by
    rw [hs, ValidIdx, List.forall₂_cons, List.forall₂_cons]
    exact ⟨hi, by omega, htail⟩
  have h1 := npFlip_get (npFlip a 0) 1 (show ValidIdx (npFlip a 0).shape (i :: j :: tail)
    from hv)
  rw [show (npFlip a 0).shape = a.shape from rfl, hs] at h1
  simp only [List.set_cons_succ, List.set_cons_zero, List.getD_cons_succ,
    List.getD_cons_zero] at h1
  have h2 := npFlip_get a 0 hv2
  rw [hs] at h2
  simp only [List.set_cons_succ, List.set_cons_zero, List.getD_cons_succ,
    List.getD_cons_zero] at h2
  rw [show rot180 a = npFlip (npFlip a 0) 1 from rfl, h1, h2]

theorem rotate_stack_eq {α : Type} [Inhabited α] (a : NdArray α) (n : Nat) (rest : List Nat)
    (hs : a.shape = n :: rest) (hn : 0 < n) (hr : 2 ≤ rest.length) :
    rotate_stack a = some { shape := n :: rest,
                            data := (List.range n).flatMap
                              fun k => (rot180 (a.frame k)).data } := by
  obtain ⟨sh, da⟩ := a
  simp only at hs
  subst hs
  simp only [rotate_stack]
  rw [if_neg (by omega), if_pos hr]

theorem frame_shape {α : Type} (a : NdArray α) (k : Nat) :
    (a.frame k).shape = a.shape.tail := rfl

theorem x_bins_length (V : List ℚ) : (x_bins V).length = V.length - 1 := by
  simp [x_bins]

theorem x_bins_getD (V : List ℚ) (i : Nat) (h : i < V.length - 1) :
    (x_bins V).getD i 0 = (V.getD i 0 + V.getD (i + 1) 0) / 2 := by
  have hlen : i < (x_bins V).length := by rw [x_bins_length]; exact h
  rw [List.getD_eq_getElem _ 0 hlen]
  simp only [x_bins, List.getElem_map, List.getElem_zipWith]
  rw [List.getElem_dropLast, List.getElem_tail]
  rw [List.getD_eq_getElem V 0 (by omega), List.getD_eq_getElem V 0 (by omega)]

theorem x_bins_step_eq (V : List ℚ) (h2 : 2 ≤ V.length) :
    x_bins_step V = some ((x_bins V).map fun x => x + (V.getD 1 0 - V.getD 0 0) / 2) := by
  rw [x_bins_step, if_pos h2]

theorem npRepeat_pair (r c : Nat) : npRepeat [r, c] 2 = [r, r, c, c] := rfl

theorem pad2d_eq {a : NdArray Int} {r c : Nat} (hs : a.shape = [r, c]) (p : Padding) :
    pad2d a p = some { shape := [r + 2 * r, c + 2 * r],
                       data := (allIndices [r + 2 * r, c + 2 * r]).map fun idx =>
                         if r ≤ idx.getD 0 0 ∧ idx.getD 0 0 < r + r ∧
                             r ≤ idx.getD 1 0 ∧ idx.getD 1 0 < r + c
                         then a.get [idx.getD 0 0 - r, idx.getD 1 0 - r] else 0 } := by
  simp only [pad2d, hs, npRepeat_pair, List.getD_cons_zero, List.getD_cons_succ,
    List.length_cons, List.length_nil, if_pos]

/-! ## The claims -/

/-- C1, code evaluated at the failing input: on the source docstring's own
example (the 3×3 array `arange(9)` with `padding = (1, 1)`), `pad2d` returns
a 9×9 array — it pads every side of both axes by `rows = 3`, not by the
requested 1 — whereas the claim (and the docstring) require shape
`(3 + 2*1, 3 + 2*1) = (5, 5)`. -/
theorem c1_pad2d_shape_bug :
    (pad2d (⟨[3, 3], [0, 1, 2, 3, 4, 5, 6, 7, 8]⟩ : NdArray Int) (Padding.pair 1 1)).map
      NdArray.shape = some [9, 9] ∧ [9, 9] ≠ [3 + 2 * 1, 3 + 2 * 1] := by
  decide

/-- C2, code evaluated at the failing input: `pad2d(A, 0)` and
`pad2d(A, (0, 0))` do not return `A`: for the 1×1 array `[[7]]` both produce
the 3×3 array with a border of width `rows = 1`, since the padding argument
is ignored. -/
theorem c2_pad2d_zero_bug :
    pad2d (⟨[1, 1], [7]⟩ : NdArray Int) (Padding.scalar 0) =
      some ⟨[3, 3], [0, 0, 0, 0, 7, 0, 0, 0, 0]⟩ ∧
    pad2d (⟨[1, 1], [7]⟩ : NdArray Int) (Padding.pair 0 0) ≠
      some (⟨[1, 1], [7]⟩ : NdArray Int) := by
  decide

/-- C3: for every rank-2 array of shape `(r, c)`, `pad2d` returns the same
result for any two padding arguments (the argument is never read), and the
border actually applied has width `r` (the number of rows) on each side of
both axes: the output has shape `(r + 2r, c + 2r)`, carries the original
content at offset `(r, r)`, and is zero elsewhere. -/
theorem c3_pad2d_ignores_padding (a : NdArray Int) (r c : Nat) (hs : a.shape = [r, c])
    (p q : Padding) :
    pad2d a p = pad2d a q ∧
    ∃ b, pad2d a p = some b ∧ b.shape = [r + 2 * r, c + 2 * r] ∧
      ∀ i j, i < r + 2 * r → j < c + 2 * r →
        b.get [i, j] = if r ≤ i ∧ i < r + r ∧ r ≤ j ∧ j < r + c
          then a.get [i - r, j - r] else 0 := by
  refine ⟨rfl, ?_⟩
  refine ⟨_, pad2d_eq hs p, rfl, ?_⟩
  intro i j hi hj
  have hv : ValidIdx [r + 2 * r, c + 2 * r] [i, j] := by
    rw [ValidIdx, List.forall₂_cons, List.forall₂_cons]
    exact ⟨hi, hj, List.Forall₂.nil⟩
  show ((allIndices [r + 2 * r, c + 2 * r]).map _).getD
    (flatIndex [r + 2 * r, c + 2 * r] [i, j]) default = _
  rw [allIndices_map_getD hv _ default]
  rfl

/-- Witness for C3 at the concrete 1×2 array `[[5, 7]]` with the two padding
arguments `0` and `(3, 4)`. -/
theorem c3_pad2d_ignores_padding_witness :
    pad2d (⟨[1, 2], [5, 7]⟩ : NdArray Int) (Padding.scalar 0) =
      pad2d (⟨[1, 2], [5, 7]⟩ : NdArray Int) (Padding.pair 3 4) ∧
    ∃ b, pad2d (⟨[1, 2], [5, 7]⟩ : NdArray Int) (Padding.scalar 0) = some b ∧
      b.shape = [3, 4] := by
  obtain ⟨h1, b, h2, h3, h4⟩ := c3_pad2d_ignores_padding (⟨[1, 2], [5, 7]⟩ : NdArray Int)
    1 2 rfl (Padding.scalar 0) (Padding.pair 3 4)
  exact ⟨h1, b, h2, h3⟩

/-- C4 counterexample: on a rank-3 array `pad2d` fails (`np.pad` rejects a
2-pair pad width for a rank-3 array), so it does not return a padded array
with unchanged trailing axes. -/
theorem c4_pad2d_rank3_counterexample :
    pad2d (⟨[1, 1, 1], [0]⟩ : NdArray Int) (Padding.scalar 1) = none := by
  decide

/-- C4 (amended): for every array of rank greater than 2 and any padding
argument, `pad2d` fails: the fixed 2-pair pad-width specification does not
match the array's rank, so `np.pad` raises. -/
theorem c4_pad2d_rank_gt_two (a : NdArray Int) (p : Padding) (h : 2 < a.shape.length) :
    pad2d a p = none := by
  simp only [pad2d]
  rw [if_neg (by omega)]

/-- Witness for C4 (amended) at a concrete 2×2×2 array. -/
theorem c4_pad2d_rank_gt_two_witness :
    pad2d (⟨[2, 2, 2], [0, 1, 2, 3, 4, 5, 6, 7]⟩ : NdArray Int) (Padding.pair 1 1) = none :=
  c4_pad2d_rank_gt_two (⟨[2, 2, 2], [0, 1, 2, 3, 4, 5, 6, 7]⟩ : NdArray Int)
    (Padding.pair 1 1) (by decide)

/-- C5: for every array of rank at least 2 with leading dimensions `r` and
`c`, `rotate` succeeds, preserves the shape, and its element at every valid
multi-index `(i, j, ...)` is the input element at `(r-1-i, c-1-j, ...)`; in
particular `rotate([[0,1,2],[3,4,5],[6,7,8]]) = [[8,7,6],[5,4,3],[2,1,0]]`. -/
theorem c5_rotate (a : NdArray Int) (r c : Nat) (rest : List Nat)
    (hs : a.shape = r :: c :: rest) :
    (∃ b, rotate a = some b ∧ b.shape = a.shape ∧
      ∀ i j tail, ValidIdx a.shape (i :: j :: tail) →
        b.get (i :: j :: tail) = a.get ((r - 1 - i) :: (c - 1 - j) :: tail)) ∧
    rotate (⟨[3, 3], [0, 1, 2, 3, 4, 5, 6, 7, 8]⟩ : NdArray Int) =
      some ⟨[3, 3], [8, 7, 6, 5, 4, 3, 2, 1, 0]⟩ := by
  constructor
  · refine ⟨rot180 a, ?_, rot180_shape a, ?_⟩
    · rw [rotate, if_pos (by rw [hs]; simp)]
    · intro i j tail hv
      exact rot180_get a r c rest hs i j tail hv
  · decide

/-- Witness for C5 at the concrete non-square 2×3 array `arange(6)`. -/
theorem c5_rotate_witness :
    ∃ b, rotate (⟨[2, 3], [0, 1, 2, 3, 4, 5]⟩ : NdArray Int) = some b ∧
      b.shape = [2, 3] ∧
      b.get [0, 0] = (⟨[2, 3], [0, 1, 2, 3, 4, 5]⟩ : NdArray Int).get [1, 2] := by
  obtain ⟨⟨b, h1, h2, h3⟩, hconc⟩ := c5_rotate (⟨[2, 3], [0, 1, 2, 3, 4, 5]⟩ : NdArray Int)
    2 3 [] rfl
  exact ⟨b, h1, h2, h3 0 0 []
    (List.Forall₂.cons (by omega) (List.Forall₂.cons (by omega) List.Forall₂.nil))⟩

/-- C6 counterexample: an empty stack of 2×2 frames has rank 3 and shape
`(0, 2, 2)`, but `rotate_stack` returns `np.array([])`, whose shape is
`(0,)` — the output shape differs from the input shape. -/
theorem c6_rotate_stack_counterexample :
    (rotate_stack (⟨[0, 2, 2], []⟩ : NdArray Int)).map NdArray.shape ≠
      some (⟨[0, 2, 2], []⟩ : NdArray Int).shape := by
  decide

/-- C6 (amended): for every array of rank at least 3 whose leading dimension
is nonzero, `rotate_stack` succeeds, preserves the shape, and its frame `k`
along axis 0 equals `rotate` of the input's frame `k` for every `k`
(frame order preserved); for a zero leading dimension the result instead has
shape `(0,)`. -/
theorem c6_rotate_stack (a : NdArray Int) (n : Nat) (rest : List Nat)
    (hs : a.shape = n :: rest) (hn : 0 < n) (hr : 2 ≤ rest.length) :
    ∃ b, rotate_stack a = some b ∧ b.shape = a.shape ∧
      ∀ k, k < n → rotate (a.frame k) = some (b.frame k) := by
  refine ⟨_, rotate_stack_eq a n rest hs hn hr, by rw [hs], ?_⟩
  intro k hk
  have hfs : (a.frame k).shape = rest := by rw [frame_shape, hs, List.tail_cons]
  rw [rotate, if_pos (by rw [hfs]; exact hr)]
  congr 1
  apply NdArray.ext'
  · rw [rot180_shape, hfs]
    simp [NdArray.frame]
  · have hblocks : ∀ x ∈ List.range n, ((rot180 (a.frame x)).data).length = rest.prod := by
      intro x _
      rw [rot180_data_length, frame_shape, hs, List.tail_cons]
    have hsl := flatMap_slice (List.range n) hblocks k (by simpa using hk)
    simp only [List.get_eq_getElem, List.getElem_range] at hsl
    exact hsl.symm

/-- Witness for C6 at the concrete stack of one 2×2 frame. -/
theorem c6_rotate_stack_witness :
    ∃ b, rotate_stack (⟨[1, 2, 2], [0, 1, 2, 3]⟩ : NdArray Int) = some b ∧
      b.shape = [1, 2, 2] := by
  obtain ⟨b, h1, h2, h3⟩ := c6_rotate_stack (⟨[1, 2, 2], [0, 1, 2, 3]⟩ : NdArray Int)
    1 [2, 2] rfl (by decide) (by decide)
  exact ⟨b, h1, h2⟩

/-- C7: for every sequence of N ≥ 2 edges, `x_bins` has N-1 entries and
entry `i` is `(V[i] + V[i+1]) / 2`. -/
theorem c7_x_bins (V : List ℚ) (N : Nat) (hN : V.length = N) (h2 : 2 ≤ N) :
    (x_bins V).length = N - 1 ∧
    ∀ i, i < N - 1 → (x_bins V).getD i 0 = (V.getD i 0 + V.getD (i + 1) 0) / 2 := by
  subst hN
  exact ⟨x_bins_length V, fun i hi => x_bins_getD V i hi⟩

/-- Witness for C7 at the concrete (unequal-width) edges `[1, 3, 7]`. -/
theorem c7_x_bins_witness :
    (x_bins [1, 3, 7]).length = 2 ∧ (x_bins [1, 3, 7]).getD 0 0 = (1 + 3) / 2 ∧
      (x_bins [1, 3, 7]).getD 1 0 = (3 + 7) / 2 := by
  obtain ⟨h1, h2⟩ := c7_x_bins [1, 3, 7] 3 rfl (by omega)
  exact ⟨h1, h2 0 (by omega), h2 1 (by omega)⟩

/-- C8: for every sequence of N ≥ 2 edges, `x_bins_step` succeeds, has N-1
entries, and entry `i` is `x_bins(V)[i] + (V[1] - V[0]) / 2` — the offset is
computed from the first two edges only, also when bins are not
equal-width. -/
theorem c8_x_bins_step (V : List ℚ) (N : Nat) (hN : V.length = N) (h2 : 2 ≤ N) :
    ∃ l, x_bins_step V = some l ∧ l.length = N - 1 ∧
      ∀ i, i < N - 1 → l.getD i 0 = (x_bins V).getD i 0 + (V.getD 1 0 - V.getD 0 0) / 2 := by
  subst hN
  refine ⟨_, x_bins_step_eq V h2, ?_, ?_⟩
  · rw [List.length_map, x_bins_length]
  · intro i hi
    have hlen : i < (x_bins V).length := by rw [x_bins_length]; omega
    rw [List.getD_eq_getElem _ 0 (by simpa using hlen), List.getElem_map,
      List.getD_eq_getElem _ 0 hlen]

/-- Witness for C8 at the concrete unequal-width edges `[1, 3, 7]`. -/
theorem c8_x_bins_step_witness :
    ∃ l, x_bins_step [1, 3, 7] = some l ∧ l.length = 2 ∧
      l.getD 1 0 = (x_bins [1, 3, 7]).getD 1 0 + ((3 : ℚ) - 1) / 2 := by
  obtain ⟨l, h1, h2, h3⟩ := c8_x_bins_step [1, 3, 7] 3 rfl (by omega)
  exact ⟨l, h1, h2, h3 1 (by omega)⟩

/-- C9: `fancy_transpose(a, roll)` transposes by the axis order
`np.roll(np.arange(ndim), roll)`; the output shape is the input shape rolled
by `roll`; the output buffer is a permutation of the input buffer (same
element values, same total count); `roll = 1` moves the last axis to the
front and `roll = -1` moves the first axis to the back. -/
theorem c9_fancy_transpose (a : NdArray Int) (r : Int)
    (hwf : a.data.length = a.shape.prod) :
    fancy_transpose a r = npTranspose a (npRoll (List.range a.shape.length) r) ∧
    (fancy_transpose a r).shape = npRoll a.shape r ∧
    (fancy_transpose a r).data.length = a.data.length ∧
    List.Perm (fancy_transpose a r).data a.data ∧
    (∀ s0 x, a.shape = s0 ++ [x] → (fancy_transpose a 1).shape = x :: s0) ∧
    (∀ x s0, a.shape = x :: s0 → (fancy_transpose a (-1)).shape = s0 ++ [x]) := by
  refine ⟨rfl, fancy_transpose_shape a r, (fancy_transpose_data_perm a r hwf).length_eq,
    fancy_transpose_data_perm a r hwf, ?_, ?_⟩
  · intro s0 x hsx
    rw [fancy_transpose_shape, hsx, npRoll_append_one]
  · intro x s0 hsx
    rw [fancy_transpose_shape, hsx, npRoll_cons_neg_one]

/-- Witness for C9 at the concrete 2×3 array `arange(6)` with `roll = 1`. -/
theorem c9_fancy_transpose_witness :
    (fancy_transpose (⟨[2, 3], [0, 1, 2, 3, 4, 5]⟩ : NdArray Int) 1).shape = [3, 2] ∧
    List.Perm (fancy_transpose (⟨[2, 3], [0, 1, 2, 3, 4, 5]⟩ : NdArray Int) 1).data
      [0, 1, 2, 3, 4, 5] := by
  obtain ⟨h1, h2, h3, h4, h5, h6⟩ := c9_fancy_transpose
    (⟨[2, 3], [0, 1, 2, 3, 4, 5]⟩ : NdArray Int) 1 rfl
  exact ⟨h5 [2] 3 rfl, h4⟩

/-- C10: a roll of +1 followed by a roll of -1 restores the array, and
`ftr`/`ftl` are exactly `fancy_transpose` with rolls 1 and -1. -/
theorem c10_fancy_transpose_cancel (a : NdArray Int)
    (hwf : a.data.length = a.shape.prod) :
    fancy_transpose (fancy_transpose a 1) (-1) = a ∧
    ftr a = fancy_transpose a 1 ∧ ftl a = fancy_transpose a (-1) :=
  ⟨ftl_ftr_cancel a hwf, rfl, rfl⟩

/-- Witness for C10 at the concrete 2×2×2 array `arange(8)`. -/
theorem c10_fancy_transpose_cancel_witness :
    fancy_transpose (fancy_transpose (⟨[2, 2, 2], [0, 1, 2, 3, 4, 5, 6, 7]⟩ : NdArray Int) 1)
      (-1) = ⟨[2, 2, 2], [0, 1, 2, 3, 4, 5, 6, 7]⟩ :=
  (c10_fancy_transpose_cancel (⟨[2, 2, 2], [0, 1, 2, 3, 4, 5, 6, 7]⟩ : NdArray Int) rfl).1

end SfTools
